import Mathlib

/-!
Verification of the `obxr` password-based file encryption tool
(`src/main.rs`) against its natural-language specification.

Bytes are modelled as `Nat` values below 256, byte buffers and file
contents as `List Nat`, and file paths as `List Char`.  The orchestration
code of `main.rs` (`do_box`, `do_unbox`, `set_secret`, `get_secret`, the
output-path derivation) is embedded directly from the source.  The
external engine (`sodium_stream::util::secrets_from_argon`,
`sodium_stream::xfile::{encrypt_file, decrypt_file}`) is not part of this
repository's sources, so it is modelled from the specification, as noted
on each such definition.
-/

set_option autoImplicit false
set_option maxRecDepth 40000

/-! ### Basic byte-buffer helpers -/

/-- `rust_sodium::utils::memzero`: overwrite a buffer with zeros
(the buffer keeps its length). -/
def memzero (b : List Nat) : List Nat :=
  List.replicate b.length 0

/-- Overwrite the bytes of `file` starting at `off` with `bytes`
(two sequential `write` calls after a `seek` behave like this on a file
opened without truncation). -/
def writeAt (file : List Nat) (off : Nat) (bytes : List Nat) : List Nat :=
  file.take off ++ bytes ++ file.drop (off + bytes.length)

/-- `set_secret` from `main.rs`: open the existing output file, seek to
offset 0, write the tag bytes and then the salt bytes.  The body of the
file beyond the written range is untouched. -/
def set_secret (file : List Nat) (hmac salt : List Nat) : List Nat :=
  writeAt (writeAt file 0 hmac) hmac.length salt

/-- `get_secret` from `main.rs`: read into a zero-initialised 80-byte
buffer with a single `read` call whose count is ignored, and return the
buffer.  A file shorter than 80 bytes leaves the remaining bytes zero. -/
def get_secret (content : List Nat) : List Nat :=
  content.take 80 ++ List.replicate (80 - content.length) 0

/-! ### Output-path derivation (`main.rs` lines 40 and 81) -/

/-- Index of the last occurrence of `c` in `l` (Rust `str::rfind`). -/
def rfindIdx (c : Char) : List Char → Option Nat
  | [] => none
  | a :: l =>
    match rfindIdx c l with
    | some i => some (i + 1)
    | none => if a = c then some 0 else none

/-- `format!("{}.{}", input.split_at(input.rfind('.').unwrap()).0, "bin")`:
the stem up to the last dot, then `".bin"`.  `none` models the
`unwrap` panic when the input contains no dot. -/
def boxPath (input : List Char) : Option (List Char) :=
  (rfindIdx '.' input).map fun i => input.take i ++ ('.' :: ['b', 'i', 'n'])

/-- Same derivation in `do_unbox`, with extension `"out"`. -/
def unboxPath (input : List Char) : Option (List Char) :=
  (rfindIdx '.' input).map fun i => input.take i ++ ('.' :: ['o', 'u', 't'])

/-! ### Key derivation

Modelled from the spec: `sodium_stream::util::secrets_from_argon` is not
in this repository.  Per spec §4.1 it is a deterministic function of
(password, salt, cost); the thread budget is a resource ceiling that
must not change the output ("parallelism must not affect output, only
wall-clock time").  It fails when the password is empty or the salt has
the wrong length.  The secret has length 56 + M with M = 32 (spec §3),
partitioned by the callers into key/nonce/MAC key.  The concrete byte
formula below is an executable stand-in for the memory-hard hash; only
its determinism, length and dependence on (password, salt, cost) are
relied upon. -/

/-- A small mixing step used by the executable stand-ins for the
external hash primitives. -/
def macStep (st b : Nat) : Nat :=
  (st * 131 + b + 1) % 4294967296

/-- Keyed initial state for the stand-in hash. -/
def macInit (key : List Nat) : Nat :=
  key.foldl macStep 5381

/-- The 88-byte secret produced by the modelled key derivation. -/
def secretOf (pw salt : List Nat) (maxArgon : Nat) : List Nat :=
  (List.range 88).map fun i =>
    (macInit pw * 31 + macInit salt * 59 + maxArgon * 131 + i * 17) % 256

/-- Modelled from the spec: `util::secrets_from_argon(password, salt,
context, threads, max_argon)`.  Deterministic in (password, salt,
max_argon); `threads` is a resource ceiling only.  Returns `none`
(the caller panics with "argon err") on an empty password or a salt of
the wrong length. -/
def secrets_from_argon (pw salt : List Nat) (threads maxArgon : Nat) :
    Option (List Nat) :=
  if pw = [] ∨ salt.length ≠ 16 then none else some (secretOf pw salt maxArgon)

/-! ### Stream cipher

Modelled from the spec: the XChaCha20 keystream lives in `rust_sodium`.
Per spec §4.3 and the glossary, the cipher is a keystream XOR whose
chunks are addressed "via a nonce/counter scheme so segments can be
produced in any order without losing keystream alignment": byte `p` of
the body is always combined with keystream byte `p`, whatever the
chunking.  The keystream formula is an executable stand-in; only that it
is a function of (key, nonce, position) is relied upon. -/

/-- Keystream byte at absolute body position `p`. -/
def keystream (key non : List Nat) (p : Nat) : Nat :=
  (macInit key * 3 + macInit non * 5 + p * 7) % 256

/-- Map a position-indexed byte function over a buffer, starting at
absolute position `off`. -/
def streamMap (g : Nat → Nat → Nat) : Nat → List Nat → List Nat
  | _, [] => []
  | off, b :: l => g off b :: streamMap g (off + 1) l

/-- Encrypt (or decrypt: the transform is an involution) the bytes of
`data`, which sit at absolute body positions `off, off+1, ...`. -/
def encFrom (key non : List Nat) (off : Nat) (data : List Nat) : List Nat :=
  streamMap (fun p b => Nat.xor b (keystream key non p)) off data

/-! ### Whole-file authentication tag

Modelled from the spec: the tag computation lives in `sodium_stream`.
Per spec §4.4 it is a deterministic, order-sensitive keyed reduction of
the ciphertext chunk sequence ("a keyed MAC over the concatenation"),
producing a 64-byte tag; per spec §3 identical ciphertext body and MAC
key always yield the identical tag.  The fold below is an executable
stand-in with exactly those properties. -/

/-- Stand-in keyed MAC state over a flat byte sequence. -/
def macBytes (key body : List Nat) : Nat :=
  body.foldl macStep (macInit key)

/-- The 64-byte tag over a flat ciphertext body. -/
def tagOf (key body : List Nat) : List Nat :=
  (List.range 64).map fun i => (macBytes key body + 37 * i) % 256

/-- The chunk-fed accumulator of spec §4.4: `update` once per ciphertext
chunk, strictly in index order. -/
def macChunksRun (chs : List (List Nat)) (st : Nat) : Nat :=
  chs.foldl (fun a c => c.foldl macStep a) st

/-- The 64-byte tag as finalised from the chunk-fed accumulator. -/
def tagChunks (key : List Nat) (chs : List (List Nat)) : List Nat :=
  (List.range 64).map fun i => (macChunksRun chs (macInit key) + 37 * i) % 256

/-! ### Chunk scheduler

Modelled from the spec: the bounded worker pool of spec §4.2/§5 lives in
`sodium_stream`.  Chunk `i` of a length-`L` body is the byte range
`[C*i, min(C*(i+1), L))`; there are `ceil(L/C)` chunks.  With `T`
workers, worker `w` processes the queue of chunks `w, w+T, w+2T, ...`;
completions are delivered keyed by chunk index and reassembled strictly
in index order, so the completion order never affects the result. -/

/-- Number of chunks: `ceil(len / C)`. -/
def numChunks (C len : Nat) : Nat :=
  (len + C - 1) / C

/-- The queue of chunk indices assigned to worker `w` out of `T`. -/
def workerQueue (T n w : Nat) : List Nat :=
  (List.range n).filter fun i => i % T = w

/-- The order in which chunk results complete across the pool. -/
def completionOrder (T n : Nat) : List Nat :=
  ((List.range T).map fun w => workerQueue T n w).flatten

/-- Completed results, keyed by chunk index, in completion order. -/
def deliveries (f : Nat → List Nat) (ord : List Nat) : List (Nat × List Nat) :=
  ord.map fun i => (i, f i)

/-- Reassemble delivered chunk results strictly in index order. -/
def reassemble (n : Nat) (ds : List (Nat × List Nat)) : List (List Nat) :=
  (List.range n).map fun i => (ds.lookup i).getD []

/-- Run chunk jobs `0..n-1` on a pool of `T` workers and reassemble the
results in index order. -/
def scheduleChunks (T n : Nat) (f : Nat → List Nat) : List (List Nat) :=
  reassemble n (deliveries f (completionOrder T n))

/-! ### The file engine entry points

Modelled from the spec: `xfile::encrypt_file` and `xfile::decrypt_file`
are not in this repository.  `encrypt_file` streams the plaintext
through the cipher in `maxMem`-sized chunks on `threads` workers,
writes the ciphertext body at offset 80 of the output file (the header
area is a placeholder until `set_secret` runs), feeds the ciphertext
chunks in index order to the authenticator, and returns the tag.
`decrypt_file` recomputes the tag over the ciphertext chunks and
verifies it against the stored tag before releasing any plaintext
(spec §4.4 authenticate-then-decrypt); on a mismatch it fails
(`AuthenticationError`) and returns no plaintext. -/

/-- Ciphertext chunk `i` of `plain` under chunk size `C`. -/
def encChunkJob (key non : List Nat) (C : Nat) (plain : List Nat)
    (i : Nat) : List Nat :=
  encFrom key non (C * i) ((plain.drop (C * i)).take C)

/-- Modelled from the spec: `xfile::encrypt_file`.  Returns the output
file contents (placeholder header ++ ciphertext body) and the tag. -/
def encrypt_file (key non : List Nat) (threads maxMem : Nat)
    (mac : List Nat) (plain : List Nat) : List Nat × List Nat :=
  let n := numChunks maxMem plain.length
  let chs := scheduleChunks threads n (encChunkJob key non maxMem plain)
  (List.replicate 80 0 ++ chs.flatten, tagChunks mac chs)

/-- Modelled from the spec: `xfile::decrypt_file`.  `storedTag` is the
tag read from the header, `macKey` the MAC key slice; the body is the
container from offset 80.  Returns the plaintext only when the
recomputed tag matches the stored one. -/
def decrypt_file (key non : List Nat) (threads maxMem : Nat)
    (storedTag macKey : List Nat) (container : List Nat) :
    Option (List Nat) :=
  let body := container.drop 80
  let n := numChunks maxMem body.length
  let cipherChs := (List.range n).map fun i => (body.drop (maxMem * i)).take maxMem
  if tagChunks macKey cipherChs = storedTag then
    some (scheduleChunks threads n (encChunkJob key non maxMem body)).flatten
  else none

/-! ### Content-level box / unbox

These compose the steps of `do_box` / `do_unbox` on file contents,
abstracting away paths and the interactive prompt: the crypto path of
`main.rs` lines 49-59 and 78-86. -/

/-- The cryptographic content of `do_box`: derive, partition the secret
as `[..32]` / `[32..56]` / `[56..]`, encrypt, then write the header. -/
def boxFile (pw salt : List Nat) (threads maxMem maxArgon : Nat)
    (plain : List Nat) : Option (List Nat) :=
  (secrets_from_argon pw salt threads maxArgon).map fun secret =>
    let key := secret.take 32
    let non := (secret.drop 32).take 24
    let mac := secret.drop 56
    let fh := encrypt_file key non threads maxMem mac plain
    set_secret fh.1 fh.2 salt

/-- The cryptographic content of `do_unbox`: read the 80-byte header,
derive from the stored salt `data[64..]`, partition identically, and
authenticate-then-decrypt with stored tag `data[..64]`. -/
def unboxFile (pw : List Nat) (threads maxMem maxArgon : Nat)
    (container : List Nat) : Option (List Nat) :=
  let data := get_secret container
  (secrets_from_argon pw (data.drop 64) threads maxArgon).bind fun secret =>
    decrypt_file (secret.take 32) ((secret.drop 32).take 24) threads maxMem
      (data.take 64) (secret.drop 56) container

/-! ### Canonical forms of the box output -/

/-- The ciphertext body a box run produces for these inputs. -/
def cipherOf (pw salt : List Nat) (maxArgon : Nat) (plain : List Nat) :
    List Nat :=
  encFrom ((secretOf pw salt maxArgon).take 32)
    (((secretOf pw salt maxArgon).drop 32).take 24) 0 plain

/-- The tag a box run writes for these inputs. -/
def tagOfBox (pw salt : List Nat) (maxArgon : Nat) (plain : List Nat) :
    List Nat :=
  tagOf ((secretOf pw salt maxArgon).drop 56) (cipherOf pw salt maxArgon plain)

/-- The full container a box run produces for these inputs. -/
def containerOf (pw salt : List Nat) (maxArgon : Nat) (plain : List Nat) :
    List Nat :=
  tagOfBox pw salt maxArgon plain ++ salt ++ cipherOf pw salt maxArgon plain

/-! ### The orchestrator, with an observable execution state

`do_box` / `do_unbox` from `main.rs`, embedded step for step.  Besides
the produced output file, the state records the artifacts a reviewer of
the source can point at: the final contents of the password and secret
buffers, the slices of the secret handed to the cipher and MAC, the
derived output path, the pre-header output file, the tag and salt
written or read, and an event trace in program order.  A `fault` models
the `expect`/`unwrap` panics and the engine's authentication failure. -/

/-- The panicking exits of `do_box` / `do_unbox`. -/
inductive Fault where
  /-- `input.rfind('.').unwrap()` on a path without a dot. -/
  | noDot
  /-- `expect("argon err")` when key derivation fails. -/
  | argonErr
  /-- `expect("io err")` / a missing input file. -/
  | ioErr
  /-- tag mismatch inside `decrypt_file`. -/
  | authErr
  deriving DecidableEq

/-- Observable events of one invocation, in program order. -/
inductive Ev where
  /-- `randombytes::randombytes(16)` in `do_box`. -/
  | genSalt
  /-- read of the 80-byte header by `get_secret` in `do_unbox`. -/
  | readHeader
  /-- call of `secrets_from_argon`. -/
  | kdf
  /-- `memzero` of the password buffer. -/
  | memzeroPassword
  /-- `memzero` of the secret buffer (no such call exists in the source). -/
  | memzeroSecret
  /-- body encryption by `encrypt_file`. -/
  | encryptBody
  /-- header write by `set_secret`. -/
  | writeHeader
  /-- body decryption by `decrypt_file`. -/
  | decryptBody
  deriving DecidableEq

/-- Final observable state of one `do_box` / `do_unbox` invocation. -/
structure RunState where
  fault : Option Fault := none
  trace : List Ev := []
  pwBuf : List Nat := []
  secretBuf : Option (List Nat) := none
  usedKey : Option (List Nat) := none
  usedNonce : Option (List Nat) := none
  usedMac : Option (List Nat) := none
  outPath : Option (List Char) := none
  outData : Option (List Nat) := none
  bodyData : Option (List Nat) := none
  tagData : Option (List Nat) := none
  saltUsed : Option (List Nat) := none
  deriving DecidableEq

/-- `do_box` from `main.rs`: output path (line 40, may panic), password
prompt, fresh 16-byte salt (line 42), key derivation (line 49, may
panic), `memzero` of the password (line 50), secret partition (lines
53-55), `encrypt_file` (line 57), `set_secret` (line 59).  The secret
buffer is never overwritten.  `fs` maps a path to the contents of the
file at that path, `pw` is the interactively entered password and
`salt` the 16 random bytes produced at line 42. -/
def do_box (fs : List Char → Option (List Nat)) (input : List Char)
    (pw salt : List Nat) (threads maxMem maxArgon : Nat) : RunState :=
  match boxPath input with
  | none => { fault := some .noDot, pwBuf := pw }
  | some output =>
    match secrets_from_argon pw salt threads maxArgon with
    | none =>
      { fault := some .argonErr, trace := [.genSalt, .kdf], pwBuf := pw,
        outPath := some output, saltUsed := some salt }
    | some secret =>
      let pw1 := memzero pw
      let key := secret.take 32
      let non := (secret.drop 32).take 24
      let mac := secret.drop 56
      match fs input with
      | none =>
        { fault := some .ioErr, trace := [.genSalt, .kdf, .memzeroPassword],
          pwBuf := pw1, secretBuf := some secret, usedKey := some key,
          usedNonce := some non, usedMac := some mac,
          outPath := some output, saltUsed := some salt }
      | some plain =>
        let fh := encrypt_file key non threads maxMem mac plain
        { fault := none,
          trace := [.genSalt, .kdf, .memzeroPassword, .encryptBody,
            .writeHeader],
          pwBuf := pw1, secretBuf := some secret, usedKey := some key,
          usedNonce := some non, usedMac := some mac,
          outPath := some output,
          outData := some (set_secret fh.1 fh.2 salt),
          bodyData := some fh.1, tagData := some fh.2,
          saltUsed := some salt }

/-- `do_unbox` from `main.rs`: header read by `get_secret` (line 70, may
panic only on a missing file), password prompt, key derivation from the
stored salt `data[64..]` (line 78, may panic), `memzero` of the password
(line 79), output path (line 81, may panic), secret partition (lines
83-84), `decrypt_file` with stored tag `data[..64]` and MAC key
`secret[56..]` (line 86).  The secret buffer is never overwritten. -/
def do_unbox (fs : List Char → Option (List Nat)) (input : List Char)
    (pw : List Nat) (threads maxMem maxArgon : Nat) : RunState :=
  match fs input with
  | none => { fault := some .ioErr, pwBuf := pw }
  | some content =>
    let data := get_secret content
    match secrets_from_argon pw (data.drop 64) threads maxArgon with
    | none =>
      { fault := some .argonErr, trace := [.readHeader, .kdf], pwBuf := pw,
        tagData := some (data.take 64), saltUsed := some (data.drop 64) }
    | some secret =>
      let pw1 := memzero pw
      match unboxPath input with
      | none =>
        { fault := some .noDot,
          trace := [.readHeader, .kdf, .memzeroPassword], pwBuf := pw1,
          secretBuf := some secret, tagData := some (data.take 64),
          saltUsed := some (data.drop 64) }
      | some output =>
        let key := secret.take 32
        let non := (secret.drop 32).take 24
        match decrypt_file key non threads maxMem (data.take 64)
            (secret.drop 56) content with
        | none =>
          { fault := some .authErr,
            trace := [.readHeader, .kdf, .memzeroPassword], pwBuf := pw1,
            secretBuf := some secret, usedKey := some key,
            usedNonce := some non, usedMac := some (secret.drop 56),
            outPath := some output, bodyData := some (content.drop 80),
            tagData := some (data.take 64),
            saltUsed := some (data.drop 64) }
        | some plain =>
          { fault := none,
            trace := [.readHeader, .kdf, .memzeroPassword, .decryptBody],
            pwBuf := pw1, secretBuf := some secret, usedKey := some key,
            usedNonce := some non, usedMac := some (secret.drop 56),
            outPath := some output, outData := some plain,
            bodyData := some (content.drop 80),
            tagData := some (data.take 64),
            saltUsed := some (data.drop 64) }

/-! ### Concrete instances for witnesses and counterexamples -/

/-- A concrete non-empty password. -/
def pwEx : List Nat := [7, 11]

/-- A concrete 16-byte salt. -/
def saltEx : List Nat := List.replicate 16 3

/-- A concrete plaintext. -/
def plainEx : List Nat := [10, 20, 30]

/-- A concrete input path `"a.b"` for `do_box`. -/
def boxInEx : List Char := ['a', '.', 'b']

/-- A filesystem with the plaintext at `"a.b"`. -/
def fsBoxEx : List Char → Option (List Nat) :=
  fun p => if p = boxInEx then some plainEx else none

/-- A concrete input path `"c.d"` for `do_unbox`. -/
def unboxInEx : List Char := ['c', '.', 'd']

/-- A concrete 100-byte container file (arbitrary contents). -/
def contEx : List Nat := List.replicate 100 1

/-- A filesystem with the container at `"c.d"`. -/
def fsUnboxEx : List Char → Option (List Nat) :=
  fun p => if p = unboxInEx then some contEx else none

/-- A concrete 10-byte (shorter than the 80-byte header) container. -/
def shortEx : List Nat := [1, 2, 3, 4, 5, 6, 7, 8, 9, 10]

/-- A filesystem with the short container at `"c.d"`. -/
def fsShortEx : List Char → Option (List Nat) :=
  fun p => if p = unboxInEx then some shortEx else none

/-- A filesystem with the container at `"x.out"`. -/
def fsOutEx : List Char → Option (List Nat) :=
  fun p => if p = ['x', '.', 'o', 'u', 't'] then some contEx else none

/-- A path without any dot. -/
def noDotEx : List Char := ['a', 'b', 'c']

/-- A filesystem with the plaintext at the dotless path. -/
def fsNoDotEx : List Char → Option (List Nat) :=
  fun p => if p = noDotEx then some contEx else none

/-! ## Helper lemmas -/

theorem streamMap_nil (g : Nat → Nat → Nat) (off : Nat) :
    streamMap g off [] = [] := rfl

theorem streamMap_cons (g : Nat → Nat → Nat) (off b : Nat) (l : List Nat) :
    streamMap g off (b :: l) = g off b :: streamMap g (off + 1) l := rfl

theorem streamMap_append (g : Nat → Nat → Nat) (a : List Nat) :
    ∀ (off : Nat) (b : List Nat),
      streamMap g off (a ++ b)
        = streamMap g off a ++ streamMap g (off + a.length) b := by
  induction a with
  | nil => intro off b; simp [streamMap_nil]
  | cons x xs ih =>
    intro off b
    rw [List.cons_append, streamMap_cons, streamMap_cons, ih (off + 1) b,
      List.cons_append]
    have h3 : off + 1 + xs.length = off + (x :: xs).length := by
      simp only [List.length_cons]
      omega
    rw [h3]

theorem streamMap_length (g : Nat → Nat → Nat) :
    ∀ (off : Nat) (l : List Nat), (streamMap g off l).length = l.length := by
  intro off l
  induction l generalizing off with
  | nil => rfl
  | cons x xs ih => simp [streamMap_cons, ih]

theorem streamMap_id :
    ∀ (off : Nat) (l : List Nat), streamMap (fun _ b => b) off l = l := by
  intro off l
  induction l generalizing off with
  | nil => rfl
  | cons x xs ih => simp [streamMap_cons, ih]

theorem streamMap_invol (g : Nat → Nat → Nat) (hg : ∀ p b, g p (g p b) = b) :
    ∀ (off : Nat) (l : List Nat), streamMap g off (streamMap g off l) = l := by
  intro off l
  induction l generalizing off with
  | nil => rfl
  | cons x xs ih => simp [streamMap_cons, hg, ih]

theorem encFrom_encFrom (key non : List Nat) (off : Nat) (l : List Nat) :
    encFrom key non off (encFrom key non off l) = l := by
  refine streamMap_invol _ (fun p b => ?_) off l
  show Nat.xor (Nat.xor b (keystream key non p)) (keystream key non p) = b
  exact Nat.xor_cancel_right (keystream key non p) b

theorem encFrom_length (key non : List Nat) (off : Nat) (l : List Nat) :
    (encFrom key non off l).length = l.length :=
  streamMap_length _ off l

theorem streamMap_split (g : Nat → Nat → Nat) (C off : Nat) (l : List Nat) :
    streamMap g off (l.take C) ++ streamMap g (off + C) (l.drop C)
      = streamMap g off l := by
  rcases Nat.le_total l.length C with hlen | hlen
  · rw [List.take_of_length_le hlen, List.drop_eq_nil_of_le hlen,
      streamMap_nil, List.append_nil]
  · conv_rhs => rw [← List.take_append_drop C l]
    rw [streamMap_append]
    have ht : (l.take C).length = C := by
      rw [List.length_take]
      omega
    rw [ht]

theorem flatten_chunkJobs (g : Nat → Nat → Nat) (C : Nat) :
    ∀ (n off : Nat) (l : List Nat), l.length ≤ C * n →
      ((List.range n).map fun j =>
          streamMap g (off + C * j) ((l.drop (C * j)).take C)).flatten
        = streamMap g off l := by
  intro n
  induction n with
  | zero =>
    intro off l hl
    simp only [Nat.mul_zero, Nat.le_zero, List.length_eq_zero] at hl
    subst hl
    simp [streamMap_nil]
  | succ n ih =>
    intro off l hl
    rw [List.range_succ_eq_map, List.map_cons, List.map_map, List.flatten_cons]
    have h0 : streamMap g (off + C * 0) ((l.drop (C * 0)).take C)
        = streamMap g off (l.take C) := by
      simp
    have hcomp : ∀ j, j ∈ List.range n →
        ((fun j => streamMap g (off + C * j) ((l.drop (C * j)).take C)) ∘
            Nat.succ) j
          = streamMap g ((off + C) + C * j)
              (((l.drop C).drop (C * j)).take C) := by
      intro j _
      have e1 : off + C * (j + 1) = off + C + C * j := by
        rw [Nat.mul_succ]
        omega
      have e2 : C * (j + 1) = C + C * j := by
        rw [Nat.mul_succ]
        omega
      have e3 : (l.drop C).drop (C * j) = l.drop (C + C * j) :=
        List.drop_drop (C * j) C l
      simp only [Function.comp_apply]
      rw [e1, e2, e3]
    rw [List.map_congr_left hcomp]
    have hdl := List.length_drop C l
    have hm : C * (n + 1) = C * n + C := Nat.mul_succ C n
    have htail := ih (off + C) (l.drop C) (by omega)
    rw [htail, h0, streamMap_split]

theorem flatten_chunkJobs_zero (g : Nat → Nat → Nat) (C n : Nat)
    (l : List Nat) (hl : l.length ≤ C * n) :
    ((List.range n).map fun j =>
        streamMap g (C * j) ((l.drop (C * j)).take C)).flatten
      = streamMap g 0 l := by
  have h := flatten_chunkJobs g C n 0 l hl
  simpa using h

theorem lookup_deliveries (f : Nat → List Nat) (i : Nat) :
    ∀ l : List Nat, i ∈ l → (deliveries f l).lookup i = some (f i) := by
  intro l hl
  induction l with
  | nil => cases hl
  | cons a l ih =>
    simp only [deliveries, List.map_cons, List.lookup]
    rcases List.mem_cons.mp hl with h | h
    · subst h
      simp
    · by_cases hia : i = a
      · subst hia
        simp
      · have : (i == a) = false := beq_false_of_ne hia
        rw [this]
        exact ih h

theorem mem_completionOrder (T n i : Nat) (hT : 0 < T) (hi : i < n) :
    i ∈ completionOrder T n := by
  refine List.mem_flatten.mpr ⟨workerQueue T n (i % T), ?_, ?_⟩
  · refine List.mem_map.mpr ⟨i % T, ?_, rfl⟩
    exact List.mem_range.mpr (Nat.mod_lt i hT)
  · refine List.mem_filter.mpr ⟨List.mem_range.mpr hi, ?_⟩
    simp

theorem scheduleChunks_eq (T n : Nat) (f : Nat → List Nat) (hT : 0 < T) :
    scheduleChunks T n f = (List.range n).map f := by
  unfold scheduleChunks reassemble
  refine List.map_congr_left ?_
  intro i hi
  rw [lookup_deliveries f i (completionOrder T n)
    (mem_completionOrder T n i hT (List.mem_range.mp hi))]
  rfl

theorem macChunksRun_eq (chs : List (List Nat)) (st : Nat) :
    macChunksRun chs st = chs.flatten.foldl macStep st := by
  rw [macChunksRun, List.foldl_flatten]

theorem tagChunks_eq (key : List Nat) (chs : List (List Nat)) :
    tagChunks key chs = tagOf key chs.flatten := by
  unfold tagChunks tagOf macBytes
  rw [macChunksRun_eq]

theorem length_tagOf (key body : List Nat) : (tagOf key body).length = 64 := by
  simp [tagOf]

theorem length_tagChunks (key : List Nat) (chs : List (List Nat)) :
    (tagChunks key chs).length = 64 := by
  simp [tagChunks]

theorem le_mul_numChunks (C len : Nat) (hC : 0 < C) :
    len ≤ C * numChunks C len := by
  unfold numChunks
  have h1 := Nat.div_add_mod (len + C - 1) C
  have h2 := Nat.mod_lt (len + C - 1) hC
  omega

theorem encrypt_file_chunks (key non mac plain : List Nat) (T C : Nat)
    (hT : 0 < T) :
    scheduleChunks T (numChunks C plain.length) (encChunkJob key non C plain)
      = (List.range (numChunks C plain.length)).map (encChunkJob key non C plain) :=
  scheduleChunks_eq T _ _ hT

theorem encChunkJob_flatten (key non plain : List Nat) (C n : Nat)
    (hC : 0 < C) (hn : plain.length ≤ C * n) :
    ((List.range n).map (encChunkJob key non C plain)).flatten
      = encFrom key non 0 plain := by
  unfold encChunkJob encFrom
  exact flatten_chunkJobs_zero _ C n plain hn

theorem plainChunks_flatten (body : List Nat) (C n : Nat) (hC : 0 < C)
    (hn : body.length ≤ C * n) :
    ((List.range n).map fun i => (body.drop (C * i)).take C).flatten = body := by
  have hcong : ∀ i, i ∈ List.range n →
      (body.drop (C * i)).take C
        = streamMap (fun _ b => b) (C * i) ((body.drop (C * i)).take C) := by
    intro i _
    rw [streamMap_id]
  rw [List.map_congr_left hcong, flatten_chunkJobs_zero _ C n body hn,
    streamMap_id]

theorem encrypt_file_eq (key non mac plain : List Nat) (T C : Nat)
    (hT : 0 < T) (hC : 0 < C) :
    encrypt_file key non T C mac plain
      = (List.replicate 80 0 ++ encFrom key non 0 plain,
          tagOf mac (encFrom key non 0 plain)) := by
  show
    (List.replicate 80 0 ++
        (scheduleChunks T (numChunks C plain.length)
          (encChunkJob key non C plain)).flatten,
      tagChunks mac
        (scheduleChunks T (numChunks C plain.length)
          (encChunkJob key non C plain))) = _
  rw [encrypt_file_chunks key non mac plain T C hT]
  rw [encChunkJob_flatten key non plain C (numChunks C plain.length) hC
    (le_mul_numChunks C plain.length hC)]
  rw [tagChunks_eq]
  rw [encChunkJob_flatten key non plain C (numChunks C plain.length) hC
    (le_mul_numChunks C plain.length hC)]

theorem decrypt_file_eq (key non storedTag macKey container : List Nat)
    (T C : Nat) (hT : 0 < T) (hC : 0 < C) :
    decrypt_file key non T C storedTag macKey container
      = if tagOf macKey (container.drop 80) = storedTag then
          some (encFrom key non 0 (container.drop 80))
        else none := by
  show
    (if tagChunks macKey
          ((List.range (numChunks C (container.drop 80).length)).map fun i =>
            ((container.drop 80).drop (C * i)).take C) = storedTag
      then
        some (scheduleChunks T (numChunks C (container.drop 80).length)
          (encChunkJob key non C (container.drop 80))).flatten
      else none) = _
  rw [tagChunks_eq,
    plainChunks_flatten (container.drop 80) C _ hC
      (le_mul_numChunks C (container.drop 80).length hC),
    scheduleChunks_eq T _ _ hT,
    encChunkJob_flatten key non (container.drop 80) C _ hC
      (le_mul_numChunks C (container.drop 80).length hC)]

theorem append_drop_add (a b : List Nat) (k : Nat) :
    (a ++ b).drop (a.length + k) = b.drop k := by
  rw [← List.drop_drop, List.drop_left]

theorem set_secret_eq (file hmac salt : List Nat) (h64 : hmac.length = 64)
    (h16 : salt.length = 16) :
    set_secret file hmac salt = hmac ++ salt ++ file.drop 80 := by
  unfold set_secret writeAt
  simp only [List.take_zero, List.nil_append, Nat.zero_add]
  rw [List.take_left, append_drop_add, List.drop_drop, h64, h16]

theorem get_secret_long (l : List Nat) (h : 80 ≤ l.length) :
    get_secret l = l.take 80 := by
  unfold get_secret
  have h0 : 80 - l.length = 0 := by omega
  rw [h0, List.replicate_zero, List.append_nil]

theorem length_get_secret (l : List Nat) : (get_secret l).length = 80 := by
  unfold get_secret
  rcases Nat.le_total 80 l.length with h | h
  · have h0 : 80 - l.length = 0 := by omega
    rw [h0, List.replicate_zero, List.append_nil, List.length_take]
    omega
  · rw [List.length_append, List.length_take, List.length_replicate]
    omega

theorem length_tagOfBox (pw salt : List Nat) (A : Nat) (plain : List Nat) :
    (tagOfBox pw salt A plain).length = 64 :=
  length_tagOf _ _

theorem length_cipherOf (pw salt : List Nat) (A : Nat) (plain : List Nat) :
    (cipherOf pw salt A plain).length = plain.length :=
  encFrom_length _ _ _ _

theorem length_containerOf (pw salt : List Nat) (A : Nat) (plain : List Nat)
    (h16 : salt.length = 16) :
    (containerOf pw salt A plain).length = 80 + plain.length := by
  unfold containerOf
  rw [List.length_append, List.length_append, length_tagOfBox, h16,
    length_cipherOf]

theorem containerOf_take80 (pw salt : List Nat) (A : Nat) (plain : List Nat)
    (h16 : salt.length = 16) :
    (containerOf pw salt A plain).take 80
      = tagOfBox pw salt A plain ++ salt := by
  unfold containerOf
  have h80 : (tagOfBox pw salt A plain ++ salt).length = 80 := by
    rw [List.length_append, length_tagOfBox, h16]
  rw [← h80, List.take_left]

theorem containerOf_drop80 (pw salt : List Nat) (A : Nat) (plain : List Nat)
    (h16 : salt.length = 16) :
    (containerOf pw salt A plain).drop 80 = cipherOf pw salt A plain := by
  unfold containerOf
  have h80 : (tagOfBox pw salt A plain ++ salt).length = 80 := by
    rw [List.length_append, length_tagOfBox, h16]
  rw [← h80, List.drop_left]

theorem take64_of_tag_salt (tg salt : List Nat) (h64 : tg.length = 64) :
    (tg ++ salt).take 64 = tg := by
  rw [← h64, List.take_left]

theorem drop64_of_tag_salt (tg salt : List Nat) (h64 : tg.length = 64) :
    (tg ++ salt).drop 64 = salt := by
  rw [← h64, List.drop_left]

theorem secrets_from_argon_eq (pw salt : List Nat) (T A : Nat)
    (hpw : pw ≠ []) (h16 : salt.length = 16) :
    secrets_from_argon pw salt T A = some (secretOf pw salt A) := by
  unfold secrets_from_argon
  rw [if_neg]
  push_neg
  exact ⟨hpw, h16⟩

theorem length_secretOf (pw salt : List Nat) (A : Nat) :
    (secretOf pw salt A).length = 88 := by
  simp [secretOf]

theorem boxFile_eq (pw salt plain : List Nat) (T C A : Nat)
    (hpw : pw ≠ []) (h16 : salt.length = 16) (hT : 0 < T) (hC : 0 < C) :
    boxFile pw salt T C A plain = some (containerOf pw salt A plain) := by
  unfold boxFile
  rw [secrets_from_argon_eq pw salt T A hpw h16]
  show some
      (set_secret
        (encrypt_file ((secretOf pw salt A).take 32)
          (((secretOf pw salt A).drop 32).take 24) T C
          ((secretOf pw salt A).drop 56) plain).1
        (encrypt_file ((secretOf pw salt A).take 32)
          (((secretOf pw salt A).drop 32).take 24) T C
          ((secretOf pw salt A).drop 56) plain).2 salt)
      = some (containerOf pw salt A plain)
  rw [encrypt_file_eq _ _ _ _ _ _ hT hC]
  dsimp only
  rw [set_secret_eq _ _ _ (length_tagOf _ _) h16]
  have hrep : (List.replicate 80 (0 : Nat)
      ++ encFrom ((secretOf pw salt A).take 32)
          (((secretOf pw salt A).drop 32).take 24) 0 plain).drop 80
      = encFrom ((secretOf pw salt A).take 32)
          (((secretOf pw salt A).drop 32).take 24) 0 plain := by
    have h := List.drop_left (List.replicate 80 (0 : Nat))
      (encFrom ((secretOf pw salt A).take 32)
        (((secretOf pw salt A).drop 32).take 24) 0 plain)
    rwa [List.length_replicate] at h
  rw [hrep]
  rfl

theorem unbox_container (pw salt plain : List Nat) (T C A : Nat)
    (hpw : pw ≠ []) (h16 : salt.length = 16) (hT : 0 < T) (hC : 0 < C) :
    unboxFile pw T C A (containerOf pw salt A plain) = some plain := by
  have hlen : 80 ≤ (containerOf pw salt A plain).length := by
    rw [length_containerOf pw salt A plain h16]
    omega
  have hdata : get_secret (containerOf pw salt A plain)
      = tagOfBox pw salt A plain ++ salt := by
    rw [get_secret_long _ hlen, containerOf_take80 pw salt A plain h16]
  show (secrets_from_argon pw
        ((get_secret (containerOf pw salt A plain)).drop 64) T A).bind
      (fun secret =>
        decrypt_file (secret.take 32) ((secret.drop 32).take 24) T C
          ((get_secret (containerOf pw salt A plain)).take 64)
          (secret.drop 56) (containerOf pw salt A plain)) = some plain
  rw [hdata, drop64_of_tag_salt _ _ (length_tagOfBox pw salt A plain),
    take64_of_tag_salt _ _ (length_tagOfBox pw salt A plain),
    secrets_from_argon_eq pw salt T A hpw h16]
  simp only [Option.some_bind]
  rw [decrypt_file_eq _ _ _ _ _ _ _ hT hC,
    containerOf_drop80 pw salt A plain h16]
  have hcond : tagOf ((secretOf pw salt A).drop 56) (cipherOf pw salt A plain)
      = tagOfBox pw salt A plain := rfl
  rw [hcond, if_pos rfl]
  show some (encFrom ((secretOf pw salt A).take 32)
      (((secretOf pw salt A).drop 32).take 24) 0
      (encFrom ((secretOf pw salt A).take 32)
        (((secretOf pw salt A).drop 32).take 24) 0 plain)) = some plain
  rw [encFrom_encFrom]

theorem rfindIdx_eq_none (c : Char) (l : List Char) (hl : c ∉ l) :
    rfindIdx c l = none := by
  induction l with
  | nil => rfl
  | cons a l ih =>
    have hne : ¬a = c := fun h => hl (h ▸ List.mem_cons_self a l)
    have hz : c ∉ l := fun h => hl (List.mem_cons_of_mem a h)
    unfold rfindIdx
    rw [ih hz]
    simp [hne]

theorem rfindIdx_append_last (c : Char) (s : List Char) (hs : c ∉ s) :
    ∀ t : List Char, rfindIdx c (t ++ c :: s) = some t.length := by
  intro t
  induction t with
  | nil =>
    show rfindIdx c (c :: s) = some 0
    unfold rfindIdx
    rw [rfindIdx_eq_none c s hs]
    simp
  | cons a t ih =>
    show rfindIdx c (a :: (t ++ c :: s)) = some (a :: t).length
    unfold rfindIdx
    rw [ih]
    simp [List.length_cons]

theorem boxPath_eq_none (input : List Char) (h : '.' ∉ input) :
    boxPath input = none := by
  unfold boxPath
  rw [rfindIdx_eq_none _ _ h]
  rfl

theorem unboxPath_eq_none (input : List Char) (h : '.' ∉ input) :
    unboxPath input = none := by
  unfold unboxPath
  rw [rfindIdx_eq_none _ _ h]
  rfl

theorem boxPath_bin (t : List Char) :
    boxPath (t ++ ('.' :: ['b', 'i', 'n']))
      = some (t ++ ('.' :: ['b', 'i', 'n'])) := by
  unfold boxPath
  rw [rfindIdx_append_last '.' ['b', 'i', 'n'] (by decide) t]
  rw [Option.map_some']
  rw [List.take_left]

theorem unboxPath_out (t : List Char) :
    unboxPath (t ++ ('.' :: ['o', 'u', 't']))
      = some (t ++ ('.' :: ['o', 'u', 't'])) := by
  unfold unboxPath
  rw [rfindIdx_append_last '.' ['o', 'u', 't'] (by decide) t]
  rw [Option.map_some']
  rw [List.take_left]

theorem length_drop64_get_secret (l : List Nat) :
    ((get_secret l).drop 64).length = 16 := by
  rw [List.length_drop, length_get_secret]

theorem do_box_success (fs : List Char → Option (List Nat)) (input : List Char)
    (pw salt : List Nat) (T C A : Nat) (out : List Char) (plain : List Nat)
    (hpath : boxPath input = some out) (hpw : pw ≠ [])
    (h16 : salt.length = 16) (hfs : fs input = some plain) :
    do_box fs input pw salt T C A =
      { fault := none,
        trace := [.genSalt, .kdf, .memzeroPassword, .encryptBody,
          .writeHeader],
        pwBuf := memzero pw,
        secretBuf := some (secretOf pw salt A),
        usedKey := some ((secretOf pw salt A).take 32),
        usedNonce := some (((secretOf pw salt A).drop 32).take 24),
        usedMac := some ((secretOf pw salt A).drop 56),
        outPath := some out,
        outData := some (set_secret
          (encrypt_file ((secretOf pw salt A).take 32)
            (((secretOf pw salt A).drop 32).take 24) T C
            ((secretOf pw salt A).drop 56) plain).1
          (encrypt_file ((secretOf pw salt A).take 32)
            (((secretOf pw salt A).drop 32).take 24) T C
            ((secretOf pw salt A).drop 56) plain).2 salt),
        bodyData := some (encrypt_file ((secretOf pw salt A).take 32)
          (((secretOf pw salt A).drop 32).take 24) T C
          ((secretOf pw salt A).drop 56) plain).1,
        tagData := some (encrypt_file ((secretOf pw salt A).take 32)
          (((secretOf pw salt A).drop 32).take 24) T C
          ((secretOf pw salt A).drop 56) plain).2,
        saltUsed := some salt } := by
  unfold do_box
  rw [hpath, secrets_from_argon_eq pw salt T A hpw h16, hfs]

theorem do_box_no_dot (fs : List Char → Option (List Nat)) (input : List Char)
    (pw salt : List Nat) (T C A : Nat) (hpath : boxPath input = none) :
    do_box fs input pw salt T C A = { fault := some .noDot, pwBuf := pw } := by
  unfold do_box
  rw [hpath]

theorem do_box_argon_fail (fs : List Char → Option (List Nat))
    (input : List Char) (pw salt : List Nat) (T C A : Nat) (out : List Char)
    (hpath : boxPath input = some out)
    (hargon : secrets_from_argon pw salt T A = none) :
    do_box fs input pw salt T C A =
      { fault := some .argonErr, trace := [.genSalt, .kdf], pwBuf := pw,
        outPath := some out, saltUsed := some salt } := by
  unfold do_box
  rw [hpath, hargon]

theorem secrets_from_argon_unbox (pw : List Nat) (content : List Nat)
    (T A : Nat) (hpw : pw ≠ []) :
    secrets_from_argon pw ((get_secret content).drop 64) T A
      = some (secretOf pw ((get_secret content).drop 64) A) :=
  secrets_from_argon_eq pw _ T A hpw (length_drop64_get_secret content)

theorem do_unbox_io_fail (fs : List Char → Option (List Nat))
    (input : List Char) (pw : List Nat) (T C A : Nat)
    (hfs : fs input = none) :
    do_unbox fs input pw T C A = { fault := some .ioErr, pwBuf := pw } := by
  unfold do_unbox
  rw [hfs]

theorem do_unbox_no_dot (fs : List Char → Option (List Nat))
    (input : List Char) (pw : List Nat) (T C A : Nat) (content : List Nat)
    (hfs : fs input = some content) (hpw : pw ≠ [])
    (hpath : unboxPath input = none) :
    do_unbox fs input pw T C A =
      { fault := some .noDot,
        trace := [.readHeader, .kdf, .memzeroPassword],
        pwBuf := memzero pw,
        secretBuf := some (secretOf pw ((get_secret content).drop 64) A),
        tagData := some ((get_secret content).take 64),
        saltUsed := some ((get_secret content).drop 64) } := by
  simp only [do_unbox, hfs, secrets_from_argon_unbox pw content T A hpw,
    hpath]

theorem do_unbox_auth_fail (fs : List Char → Option (List Nat))
    (input : List Char) (pw : List Nat) (T C A : Nat) (content : List Nat)
    (out : List Char)
    (hfs : fs input = some content) (hpw : pw ≠ [])
    (hpath : unboxPath input = some out)
    (hdec : decrypt_file ((secretOf pw ((get_secret content).drop 64) A).take 32)
        (((secretOf pw ((get_secret content).drop 64) A).drop 32).take 24) T C
        ((get_secret content).take 64)
        ((secretOf pw ((get_secret content).drop 64) A).drop 56) content
      = none) :
    do_unbox fs input pw T C A =
      { fault := some .authErr,
        trace := [.readHeader, .kdf, .memzeroPassword],
        pwBuf := memzero pw,
        secretBuf := some (secretOf pw ((get_secret content).drop 64) A),
        usedKey := some ((secretOf pw ((get_secret content).drop 64) A).take 32),
        usedNonce := some
          (((secretOf pw ((get_secret content).drop 64) A).drop 32).take 24),
        usedMac := some ((secretOf pw ((get_secret content).drop 64) A).drop 56),
        outPath := some out,
        bodyData := some (content.drop 80),
        tagData := some ((get_secret content).take 64),
        saltUsed := some ((get_secret content).drop 64) } := by
  simp only [do_unbox, hfs, secrets_from_argon_unbox pw content T A hpw,
    hpath, hdec]

theorem do_unbox_success (fs : List Char → Option (List Nat))
    (input : List Char) (pw : List Nat) (T C A : Nat) (content : List Nat)
    (out : List Char) (plain : List Nat)
    (hfs : fs input = some content) (hpw : pw ≠ [])
    (hpath : unboxPath input = some out)
    (hdec : decrypt_file ((secretOf pw ((get_secret content).drop 64) A).take 32)
        (((secretOf pw ((get_secret content).drop 64) A).drop 32).take 24) T C
        ((get_secret content).take 64)
        ((secretOf pw ((get_secret content).drop 64) A).drop 56) content
      = some plain) :
    do_unbox fs input pw T C A =
      { fault := none,
        trace := [.readHeader, .kdf, .memzeroPassword, .decryptBody],
        pwBuf := memzero pw,
        secretBuf := some (secretOf pw ((get_secret content).drop 64) A),
        usedKey := some ((secretOf pw ((get_secret content).drop 64) A).take 32),
        usedNonce := some
          (((secretOf pw ((get_secret content).drop 64) A).drop 32).take 24),
        usedMac := some ((secretOf pw ((get_secret content).drop 64) A).drop 56),
        outPath := some out,
        outData := some plain,
        bodyData := some (content.drop 80),
        tagData := some ((get_secret content).take 64),
        saltUsed := some ((get_secret content).drop 64) } := by
  simp only [do_unbox, hfs, secrets_from_argon_unbox pw content T A hpw,
    hpath, hdec]

theorem do_box_io_fail (fs : List Char → Option (List Nat))
    (input : List Char) (pw salt : List Nat) (T C A : Nat) (out : List Char)
    (hpath : boxPath input = some out) (hpw : pw ≠ [])
    (h16 : salt.length = 16) (hfs : fs input = none) :
    do_box fs input pw salt T C A =
      { fault := some .ioErr, trace := [.genSalt, .kdf, .memzeroPassword],
        pwBuf := memzero pw,
        secretBuf := some (secretOf pw salt A),
        usedKey := some ((secretOf pw salt A).take 32),
        usedNonce := some (((secretOf pw salt A).drop 32).take 24),
        usedMac := some ((secretOf pw salt A).drop 56),
        outPath := some out, saltUsed := some salt } := by
  unfold do_box
  rw [hpath, secrets_from_argon_eq pw salt T A hpw h16, hfs]

theorem do_box_outPath (fs : List Char → Option (List Nat))
    (input : List Char) (pw salt : List Nat) (T C A : Nat) (out : List Char)
    (hpath : boxPath input = some out) :
    (do_box fs input pw salt T C A).outPath = some out := by
  unfold do_box
  rw [hpath]
  split
  · next heq => exact Option.noConfusion heq
  · next output heq =>
    injection heq with h
    subst h
    split
    · rfl
    · split
      · rfl
      · rfl

theorem do_unbox_outPath (fs : List Char → Option (List Nat))
    (input : List Char) (pw : List Nat) (T C A : Nat) (content : List Nat)
    (out : List Char) (hfs : fs input = some content) (hpw : pw ≠ [])
    (hpath : unboxPath input = some out) :
    (do_unbox fs input pw T C A).outPath = some out := by
  cases hdec : decrypt_file
      ((secretOf pw ((get_secret content).drop 64) A).take 32)
      (((secretOf pw ((get_secret content).drop 64) A).drop 32).take 24) T C
      ((get_secret content).take 64)
      ((secretOf pw ((get_secret content).drop 64) A).drop 56) content with
  | none =>
    rw [do_unbox_auth_fail fs input pw T C A content out hfs hpw hpath hdec]
  | some pl =>
    rw [do_unbox_success fs input pw T C A content out pl hfs hpw hpath hdec]

theorem do_box_no_memzeroSecret (fs : List Char → Option (List Nat))
    (input : List Char) (pw salt : List Nat) (T C A : Nat) :
    Ev.memzeroSecret ∉ (do_box fs input pw salt T C A).trace := by
  unfold do_box
  split
  · simp
  · split
    · simp
    · split
      · simp
      · simp

theorem do_unbox_no_memzeroSecret (fs : List Char → Option (List Nat))
    (input : List Char) (pw : List Nat) (T C A : Nat) :
    Ev.memzeroSecret ∉ (do_unbox fs input pw T C A).trace := by
  unfold do_unbox
  dsimp only
  split
  · simp
  · split
    · simp
    · split
      · simp
      · split
        · simp
        · simp

theorem do_box_fault_none_pwBuf (fs : List Char → Option (List Nat))
    (input : List Char) (pw salt : List Nat) (T C A : Nat)
    (h : (do_box fs input pw salt T C A).fault = none) :
    (do_box fs input pw salt T C A).pwBuf = memzero pw := by
  unfold do_box at *
  split at h
  · simp at h
  · split at h
    · simp at h
    · split at h
      · simp at h
      · rfl

theorem do_unbox_fault_none_pwBuf (fs : List Char → Option (List Nat))
    (input : List Char) (pw : List Nat) (T C A : Nat)
    (h : (do_unbox fs input pw T C A).fault = none) :
    (do_unbox fs input pw T C A).pwBuf = memzero pw := by
  unfold do_unbox at *
  dsimp only at h ⊢
  split at h
  · simp at h
  · split at h
    · simp at h
    · split at h
      · simp at h
      · split at h
        · simp at h
        · rfl

theorem box_output_eq (pw salt plain : List Nat) (T C A : Nat)
    (h16 : salt.length = 16) (hT : 0 < T) (hC : 0 < C) :
    set_secret
      (encrypt_file ((secretOf pw salt A).take 32)
        (((secretOf pw salt A).drop 32).take 24) T C
        ((secretOf pw salt A).drop 56) plain).1
      (encrypt_file ((secretOf pw salt A).take 32)
        (((secretOf pw salt A).drop 32).take 24) T C
        ((secretOf pw salt A).drop 56) plain).2 salt
      = containerOf pw salt A plain := by
  rw [encrypt_file_eq _ _ _ _ _ _ hT hC]
  dsimp only
  rw [set_secret_eq _ _ _ (length_tagOf _ _) h16]
  have hrep : (List.replicate 80 (0 : Nat)
      ++ encFrom ((secretOf pw salt A).take 32)
          (((secretOf pw salt A).drop 32).take 24) 0 plain).drop 80
      = encFrom ((secretOf pw salt A).take 32)
          (((secretOf pw salt A).drop 32).take 24) 0 plain := by
    have h := List.drop_left (List.replicate 80 (0 : Nat))
      (encFrom ((secretOf pw salt A).take 32)
        (((secretOf pw salt A).drop 32).take 24) 0 plain)
    rwa [List.length_replicate] at h
  rw [hrep]
  rfl

theorem set_secret_frame (f hm s : List Nat) (h64 : hm.length = 64)
    (h16 : s.length = 16) (hf : 80 ≤ f.length) :
    (set_secret f hm s).take 80 = hm ++ s ∧
    (set_secret f hm s).drop 80 = f.drop 80 ∧
    (set_secret f hm s).length = f.length := by
  rw [set_secret_eq f hm s h64 h16]
  have h80 : (hm ++ s).length = 80 := by
    rw [List.length_append, h64, h16]
  refine ⟨?_, ?_, ?_⟩
  · rw [← h80, List.take_left]
  · rw [← h80, List.drop_left]
  · rw [List.length_append, h80, List.length_drop]
    omega

theorem take64_get_secret (content : List Nat) (h : 80 ≤ content.length) :
    (get_secret content).take 64 = content.take 64 := by
  rw [get_secret_long content h, List.take_take]
  norm_num

theorem drop64_get_secret (content : List Nat) (h : 80 ≤ content.length) :
    (get_secret content).drop 64 = (content.drop 64).take 16 := by
  rw [get_secret_long content h]
  have h2 := List.drop_take 80 64 content
  rw [h2]

theorem tag_chunking_independent (mk body : List Nat) (C C2 : Nat)
    (hC : 0 < C) (hC2 : 0 < C2) :
    tagChunks mk ((List.range (numChunks C body.length)).map fun i =>
        (body.drop (C * i)).take C)
      = tagChunks mk ((List.range (numChunks C2 body.length)).map fun i =>
        (body.drop (C2 * i)).take C2) := by
  rw [tagChunks_eq, tagChunks_eq,
    plainChunks_flatten body C _ hC (le_mul_numChunks C body.length hC),
    plainChunks_flatten body C2 _ hC2 (le_mul_numChunks C2 body.length hC2)]

/-! ## Claim theorems -/

/-- C1: for every plaintext `plain` and password `pw`, unboxing the
container produced by boxing recovers exactly the original bytes
(byte-exact round trip), given that both sides use the same password and
argon cost and hence derive the same secret with the same
key/nonce/MAC-key partition; the thread and memory budgets of the two
runs may each be any positive values. -/
theorem c1_box_unbox_roundtrip (pw salt plain : List Nat)
    (Tb Cb Tu Cu A : Nat) (hpw : pw ≠ []) (h16 : salt.length = 16)
    (hTb : 0 < Tb) (hCb : 0 < Cb) (hTu : 0 < Tu) (hCu : 0 < Cu) :
    (boxFile pw salt Tb Cb A plain).bind (unboxFile pw Tu Cu A)
      = some plain := by
  rw [boxFile_eq pw salt plain Tb Cb A hpw h16 hTb hCb, Option.some_bind]
  exact unbox_container pw salt plain Tu Cu A hpw h16 hTu hCu

/-- C1 witness: the round trip at a concrete password, salt, plaintext
and budgets. -/
theorem c1_box_unbox_roundtrip_witness :
    (boxFile pwEx saltEx 2 2 0 plainEx).bind (unboxFile pwEx 2 2 0)
      = some plainEx :=
  c1_box_unbox_roundtrip pwEx saltEx plainEx 2 2 2 2 0 (by decide)
    (by decide) (by decide) (by decide) (by decide) (by decide)

/-- C2: two box runs that differ only in the thread and/or memory
budgets produce the identical container: the ciphertext bytes are the
same across thread-count variations, and the authentication tag fed
from the chunk sequence is the same whenever the ciphertext bytes are
the same, whatever chunk size the memory budget induces; the budgets
affect only scheduling, never the output bytes. -/
theorem c2_budget_independent (pw salt plain : List Nat)
    (T T2 C C2 A : Nat) (hpw : pw ≠ []) (h16 : salt.length = 16)
    (hT : 0 < T) (hT2 : 0 < T2) (hC : 0 < C) (hC2 : 0 < C2) :
    boxFile pw salt T C A plain = boxFile pw salt T2 C2 A plain ∧
    (∀ mk body : List Nat,
      tagChunks mk ((List.range (numChunks C body.length)).map fun i =>
          (body.drop (C * i)).take C)
        = tagChunks mk ((List.range (numChunks C2 body.length)).map fun i =>
          (body.drop (C2 * i)).take C2)) := by
  constructor
  · rw [boxFile_eq pw salt plain T C A hpw h16 hT hC,
      boxFile_eq pw salt plain T2 C2 A hpw h16 hT2 hC2]
  · intro mk body
    exact tag_chunking_independent mk body C C2 hC hC2

/-- C2 witness: containers coincide at concrete inputs for budgets
(threads 1, 1 MB-model chunk 1) versus (threads 2, chunk 3), and the
chunk-fed tag of a concrete body is chunking-independent. -/
theorem c2_budget_independent_witness :
    boxFile pwEx saltEx 1 1 0 plainEx = boxFile pwEx saltEx 2 3 0 plainEx ∧
    tagChunks pwEx ((List.range (numChunks 1 plainEx.length)).map fun i =>
        (plainEx.drop (1 * i)).take 1)
      = tagChunks pwEx ((List.range (numChunks 3 plainEx.length)).map fun i =>
        (plainEx.drop (3 * i)).take 3) :=
  ⟨(c2_budget_independent pwEx saltEx plainEx 1 2 1 3 0 (by decide)
      (by decide) (by decide) (by decide) (by decide) (by decide)).1,
   (c2_budget_independent pwEx saltEx plainEx 1 2 1 3 0 (by decide)
      (by decide) (by decide) (by decide) (by decide) (by decide)).2
     pwEx plainEx⟩

/-- C3: the claim is right and the code is wrong: `get_secret` performs
one `read` into a zero-initialised 80-byte buffer and ignores the byte
count, so a container of only 10 bytes is not rejected as truncated.
The buffer comes back as the 10 bytes zero-padded to 80, and `do_unbox`
goes on to key derivation (the `kdf` event is in its trace) and the tag
comparison instead of failing during the header read with no further
processing. -/
theorem c3_short_file_still_processed :
    get_secret shortEx = shortEx ++ List.replicate 70 0 ∧
    (do_unbox fsShortEx unboxInEx pwEx 4 1024 0).fault ≠ some Fault.ioErr ∧
    Ev.kdf ∈ (do_unbox fsShortEx unboxInEx pwEx 4 1024 0).trace ∧
    Ev.memzeroPassword ∈ (do_unbox fsShortEx unboxInEx pwEx 4 1024 0).trace :=
  ⟨by decide, by decide, by decide, by decide⟩

/-- C4 counterexample: the claim as stated is false on the code: a
successful box run returns with the derived secret buffer still holding
the secret (not zeros), and no secret-zeroing event ever occurs. -/
theorem c4_counterexample_secret_not_zeroed :
    (do_box fsBoxEx boxInEx pwEx saltEx 2 2 0).fault = none ∧
    (do_box fsBoxEx boxInEx pwEx saltEx 2 2 0).secretBuf
      = some (secretOf pwEx saltEx 0) ∧
    secretOf pwEx saltEx 0 ≠ memzero (secretOf pwEx saltEx 0) ∧
    Ev.memzeroSecret ∉ (do_box fsBoxEx boxInEx pwEx saltEx 2 2 0).trace :=
  ⟨by decide, by decide, by decide, by decide⟩

/-- C4 (amended): on every exit path of box and unbox the derived
secret buffer is never overwritten with zeros; the password buffer is
zeroed exactly when key derivation succeeded: it is zeroed on every
fault-free exit, but when key derivation fails the operation panics
with the password buffer intact. -/
theorem c4_zeroization_behavior (fs fs2 : List Char → Option (List Nat))
    (input input2 : List Char) (pw salt : List Nat) (T C A : Nat) :
    (Ev.memzeroSecret ∉ (do_box fs input pw salt T C A).trace ∧
     Ev.memzeroSecret ∉ (do_unbox fs2 input2 pw T C A).trace) ∧
    ((do_box fs input pw salt T C A).fault = none →
      (do_box fs input pw salt T C A).pwBuf = memzero pw) ∧
    ((do_unbox fs2 input2 pw T C A).fault = none →
      (do_unbox fs2 input2 pw T C A).pwBuf = memzero pw) ∧
    (∀ out : List Char, boxPath input = some out →
      secrets_from_argon pw salt T A = none →
      (do_box fs input pw salt T C A).pwBuf = pw) := by
  refine ⟨⟨do_box_no_memzeroSecret fs input pw salt T C A,
    do_unbox_no_memzeroSecret fs2 input2 pw T C A⟩,
    do_box_fault_none_pwBuf fs input pw salt T C A,
    do_unbox_fault_none_pwBuf fs2 input2 pw T C A,
    ?_⟩
  intro out hpath hargon
  rw [do_box_argon_fail fs input pw salt T C A out hpath hargon]

/-- C4 witness: zeroization behaviour at concrete runs: no secret
zeroing on a successful box; the password zeroed on that run; the
password left intact when derivation fails (3-byte salt). -/
theorem c4_zeroization_behavior_witness :
    Ev.memzeroSecret ∉ (do_box fsBoxEx boxInEx pwEx saltEx 2 2 0).trace ∧
    (do_box fsBoxEx boxInEx pwEx saltEx 2 2 0).pwBuf = memzero pwEx ∧
    (do_box fsBoxEx boxInEx pwEx [1, 2, 3] 2 2 0).pwBuf = pwEx :=
  ⟨(c4_zeroization_behavior fsBoxEx fsUnboxEx boxInEx unboxInEx pwEx saltEx
      2 2 0).1.1,
   (c4_zeroization_behavior fsBoxEx fsUnboxEx boxInEx unboxInEx pwEx saltEx
      2 2 0).2.1 (by decide),
   (c4_zeroization_behavior fsBoxEx fsUnboxEx boxInEx unboxInEx pwEx
      [1, 2, 3] 2 2 0).2.2.2 ['a', '.', 'b', 'i', 'n'] (by decide)
     (by decide)⟩

theorem containerOf_take64 (pw salt : List Nat) (A : Nat) (plain : List Nat)
    (h16 : salt.length = 16) :
    (containerOf pw salt A plain).take 64 = tagOfBox pw salt A plain := by
  have h1 : (containerOf pw salt A plain).take 64
      = ((containerOf pw salt A plain).take 80).take 64 := by
    rw [List.take_take]
    norm_num
  rw [h1, containerOf_take80 pw salt A plain h16,
    take64_of_tag_salt _ _ (length_tagOfBox pw salt A plain)]

theorem containerOf_salt (pw salt : List Nat) (A : Nat) (plain : List Nat)
    (h16 : salt.length = 16) :
    ((containerOf pw salt A plain).drop 64).take 16 = salt := by
  unfold containerOf
  rw [List.append_assoc,
    show (64 : Nat) = (tagOfBox pw salt A plain).length from
      (length_tagOfBox pw salt A plain).symm,
    List.drop_left, ← h16, List.take_left]

/-- C5: the container layout is fixed: box writes the 64-byte tag at
bytes [0,64), the 16-byte salt at [64,80) and the ciphertext body from
offset 80, and unbox partitions its input identically: stored tag =
bytes [0,64), derivation salt = bytes [64,80), processed body = bytes
from offset 80. -/
theorem c5_container_layout (fs fs2 : List Char → Option (List Nat))
    (input input2 : List Char) (pw pw2 salt : List Nat)
    (T C A T2 C2 A2 : Nat) (out out2 : List Char) (plain content : List Nat)
    (hpath : boxPath input = some out) (hpw : pw ≠ [])
    (h16 : salt.length = 16) (hfs : fs input = some plain)
    (hT : 0 < T) (hC : 0 < C)
    (hfs2 : fs2 input2 = some content) (hpw2 : pw2 ≠ [])
    (hpath2 : unboxPath input2 = some out2) (hcl : 80 ≤ content.length) :
    (do_box fs input pw salt T C A).outData
        = some (containerOf pw salt A plain) ∧
    (containerOf pw salt A plain).take 64 = tagOfBox pw salt A plain ∧
    ((containerOf pw salt A plain).drop 64).take 16 = salt ∧
    (containerOf pw salt A plain).drop 80 = cipherOf pw salt A plain ∧
    (do_unbox fs2 input2 pw2 T2 C2 A2).tagData = some (content.take 64) ∧
    (do_unbox fs2 input2 pw2 T2 C2 A2).saltUsed
        = some ((content.drop 64).take 16) ∧
    (do_unbox fs2 input2 pw2 T2 C2 A2).bodyData = some (content.drop 80) := by
  refine ⟨?_, containerOf_take64 pw salt A plain h16,
    containerOf_salt pw salt A plain h16,
    containerOf_drop80 pw salt A plain h16, ?_, ?_, ?_⟩
  · rw [do_box_success fs input pw salt T C A out plain hpath hpw h16 hfs]
    exact congrArg some (box_output_eq pw salt plain T C A h16 hT hC)
  · cases hdec : decrypt_file
        ((secretOf pw2 ((get_secret content).drop 64) A2).take 32)
        (((secretOf pw2 ((get_secret content).drop 64) A2).drop 32).take 24)
        T2 C2 ((get_secret content).take 64)
        ((secretOf pw2 ((get_secret content).drop 64) A2).drop 56) content with
    | none =>
      rw [do_unbox_auth_fail fs2 input2 pw2 T2 C2 A2 content out2 hfs2 hpw2
        hpath2 hdec]
      exact congrArg some (take64_get_secret content hcl)
    | some pl =>
      rw [do_unbox_success fs2 input2 pw2 T2 C2 A2 content out2 pl hfs2 hpw2
        hpath2 hdec]
      exact congrArg some (take64_get_secret content hcl)
  · cases hdec : decrypt_file
        ((secretOf pw2 ((get_secret content).drop 64) A2).take 32)
        (((secretOf pw2 ((get_secret content).drop 64) A2).drop 32).take 24)
        T2 C2 ((get_secret content).take 64)
        ((secretOf pw2 ((get_secret content).drop 64) A2).drop 56) content with
    | none =>
      rw [do_unbox_auth_fail fs2 input2 pw2 T2 C2 A2 content out2 hfs2 hpw2
        hpath2 hdec]
      exact congrArg some (drop64_get_secret content hcl)
    | some pl =>
      rw [do_unbox_success fs2 input2 pw2 T2 C2 A2 content out2 pl hfs2 hpw2
        hpath2 hdec]
      exact congrArg some (drop64_get_secret content hcl)
  · cases hdec : decrypt_file
        ((secretOf pw2 ((get_secret content).drop 64) A2).take 32)
        (((secretOf pw2 ((get_secret content).drop 64) A2).drop 32).take 24)
        T2 C2 ((get_secret content).take 64)
        ((secretOf pw2 ((get_secret content).drop 64) A2).drop 56) content with
    | none =>
      rw [do_unbox_auth_fail fs2 input2 pw2 T2 C2 A2 content out2 hfs2 hpw2
        hpath2 hdec]
    | some pl =>
      rw [do_unbox_success fs2 input2 pw2 T2 C2 A2 content out2 pl hfs2 hpw2
        hpath2 hdec]

/-- C5 witness: the box side of the layout at concrete inputs. -/
theorem c5_container_layout_witness :
    (do_box fsBoxEx boxInEx pwEx saltEx 2 2 0).outData
        = some (containerOf pwEx saltEx 0 plainEx) ∧
    (do_unbox fsUnboxEx unboxInEx pwEx 2 2 0).saltUsed
        = some ((contEx.drop 64).take 16) :=
  ⟨(c5_container_layout fsBoxEx fsUnboxEx boxInEx unboxInEx pwEx pwEx saltEx
      2 2 0 2 2 0 ['a', '.', 'b', 'i', 'n'] ['c', '.', 'o', 'u', 't']
      plainEx contEx (by decide) (by decide) (by decide) (by decide)
      (by decide) (by decide) (by decide) (by decide) (by decide)
      (by decide)).1,
   (c5_container_layout fsBoxEx fsUnboxEx boxInEx unboxInEx pwEx pwEx saltEx
      2 2 0 2 2 0 ['a', '.', 'b', 'i', 'n'] ['c', '.', 'o', 'u', 't']
      plainEx contEx (by decide) (by decide) (by decide) (by decide)
      (by decide) (by decide) (by decide) (by decide) (by decide)
      (by decide)).2.2.2.2.2.1⟩

/-- C6: in box, the header write (`set_secret`) happens only after the
entire ciphertext body has been produced by `encrypt_file` (the trace
places `writeHeader` last, after `encryptBody`), and `set_secret`
rewrites exactly the bytes at offsets [0,80) of the file it is given,
leaving every byte from offset 80 on unchanged and preserving the file
length. -/
theorem c6_header_write_after_body (fs : List Char → Option (List Nat))
    (input : List Char) (pw salt : List Nat) (T C A : Nat)
    (out : List Char) (plain : List Nat)
    (hpath : boxPath input = some out) (hpw : pw ≠ [])
    (h16 : salt.length = 16) (hfs : fs input = some plain) :
    (do_box fs input pw salt T C A).trace
        = [.genSalt, .kdf, .memzeroPassword, .encryptBody, .writeHeader] ∧
    (do_box fs input pw salt T C A).outData
        = some (set_secret
            (encrypt_file ((secretOf pw salt A).take 32)
              (((secretOf pw salt A).drop 32).take 24) T C
              ((secretOf pw salt A).drop 56) plain).1
            (encrypt_file ((secretOf pw salt A).take 32)
              (((secretOf pw salt A).drop 32).take 24) T C
              ((secretOf pw salt A).drop 56) plain).2 salt) ∧
    (do_box fs input pw salt T C A).bodyData
        = some (encrypt_file ((secretOf pw salt A).take 32)
            (((secretOf pw salt A).drop 32).take 24) T C
            ((secretOf pw salt A).drop 56) plain).1 ∧
    (∀ f hm s : List Nat, hm.length = 64 → s.length = 16 →
      80 ≤ f.length →
      (set_secret f hm s).take 80 = hm ++ s ∧
      (set_secret f hm s).drop 80 = f.drop 80 ∧
      (set_secret f hm s).length = f.length) := by
  rw [do_box_success fs input pw salt T C A out plain hpath hpw h16 hfs]
  exact ⟨rfl, rfl, rfl, fun f hm s h1 h2 h3 => set_secret_frame f hm s h1 h2 h3⟩

/-- C6 witness: the trace ordering at a concrete run and the frame
property of `set_secret` at a concrete 100-byte file. -/
theorem c6_header_write_after_body_witness :
    (do_box fsBoxEx boxInEx pwEx saltEx 2 2 0).trace
        = [.genSalt, .kdf, .memzeroPassword, .encryptBody, .writeHeader] ∧
    (set_secret contEx (List.replicate 64 9) saltEx).drop 80
        = contEx.drop 80 ∧
    (set_secret contEx (List.replicate 64 9) saltEx).length
        = contEx.length :=
  ⟨(c6_header_write_after_body fsBoxEx boxInEx pwEx saltEx 2 2 0
      ['a', '.', 'b', 'i', 'n'] plainEx (by decide) (by decide) (by decide)
      (by decide)).1,
   ((c6_header_write_after_body fsBoxEx boxInEx pwEx saltEx 2 2 0
      ['a', '.', 'b', 'i', 'n'] plainEx (by decide) (by decide) (by decide)
      (by decide)).2.2.2 contEx (List.replicate 64 9) saltEx (by decide)
      (by decide) (by decide)).2.1,
   ((c6_header_write_after_body fsBoxEx boxInEx pwEx saltEx 2 2 0
      ['a', '.', 'b', 'i', 'n'] plainEx (by decide) (by decide) (by decide)
      (by decide)).2.2.2 contEx (List.replicate 64 9) saltEx (by decide)
      (by decide) (by decide)).2.2⟩

/-- C7: every box run feeds the freshly generated 16-byte salt to the
derivation and persists exactly that salt at bytes [64,80) of the
container; every unbox run derives its secret from the salt read back
from bytes [64,80) of the input file and never generates a salt (no
`genSalt` event in its trace). -/
theorem c7_salt_fresh_and_reread (fs fs2 : List Char → Option (List Nat))
    (input input2 : List Char) (pw pw2 salt : List Nat)
    (T C A T2 C2 A2 : Nat) (out out2 : List Char) (plain content : List Nat)
    (hpath : boxPath input = some out) (hpw : pw ≠ [])
    (h16 : salt.length = 16) (hfs : fs input = some plain)
    (hT : 0 < T) (hC : 0 < C)
    (hfs2 : fs2 input2 = some content) (hpw2 : pw2 ≠ [])
    (hpath2 : unboxPath input2 = some out2) (hcl : 80 ≤ content.length) :
    Ev.genSalt ∈ (do_box fs input pw salt T C A).trace ∧
    (do_box fs input pw salt T C A).saltUsed = some salt ∧
    (do_box fs input pw salt T C A).outData
        = some (containerOf pw salt A plain) ∧
    ((containerOf pw salt A plain).drop 64).take 16 = salt ∧
    Ev.genSalt ∉ (do_unbox fs2 input2 pw2 T2 C2 A2).trace ∧
    (do_unbox fs2 input2 pw2 T2 C2 A2).saltUsed
        = some ((content.drop 64).take 16) ∧
    (do_unbox fs2 input2 pw2 T2 C2 A2).secretBuf
        = some (secretOf pw2 ((content.drop 64).take 16) A2) := by
  have hbox := do_box_success fs input pw salt T C A out plain hpath hpw h16 hfs
  refine ⟨?_, ?_, ?_, containerOf_salt pw salt A plain h16, ?_, ?_, ?_⟩
  · rw [hbox]
    simp
  · rw [hbox]
  · rw [hbox]
    exact congrArg some (box_output_eq pw salt plain T C A h16 hT hC)
  · cases hdec : decrypt_file
        ((secretOf pw2 ((get_secret content).drop 64) A2).take 32)
        (((secretOf pw2 ((get_secret content).drop 64) A2).drop 32).take 24)
        T2 C2 ((get_secret content).take 64)
        ((secretOf pw2 ((get_secret content).drop 64) A2).drop 56) content with
    | none =>
      rw [do_unbox_auth_fail fs2 input2 pw2 T2 C2 A2 content out2 hfs2 hpw2
        hpath2 hdec]
      simp
    | some pl =>
      rw [do_unbox_success fs2 input2 pw2 T2 C2 A2 content out2 pl hfs2 hpw2
        hpath2 hdec]
      simp
  · cases hdec : decrypt_file
        ((secretOf pw2 ((get_secret content).drop 64) A2).take 32)
        (((secretOf pw2 ((get_secret content).drop 64) A2).drop 32).take 24)
        T2 C2 ((get_secret content).take 64)
        ((secretOf pw2 ((get_secret content).drop 64) A2).drop 56) content with
    | none =>
      rw [do_unbox_auth_fail fs2 input2 pw2 T2 C2 A2 content out2 hfs2 hpw2
        hpath2 hdec]
      exact congrArg some (drop64_get_secret content hcl)
    | some pl =>
      rw [do_unbox_success fs2 input2 pw2 T2 C2 A2 content out2 pl hfs2 hpw2
        hpath2 hdec]
      exact congrArg some (drop64_get_secret content hcl)
  · cases hdec : decrypt_file
        ((secretOf pw2 ((get_secret content).drop 64) A2).take 32)
        (((secretOf pw2 ((get_secret content).drop 64) A2).drop 32).take 24)
        T2 C2 ((get_secret content).take 64)
        ((secretOf pw2 ((get_secret content).drop 64) A2).drop 56) content with
    | none =>
      rw [do_unbox_auth_fail fs2 input2 pw2 T2 C2 A2 content out2 hfs2 hpw2
        hpath2 hdec, drop64_get_secret content hcl]
    | some pl =>
      rw [do_unbox_success fs2 input2 pw2 T2 C2 A2 content out2 pl hfs2 hpw2
        hpath2 hdec, drop64_get_secret content hcl]

/-- C7 witness: salt persisted by box and re-read by unbox at concrete
inputs. -/
theorem c7_salt_fresh_and_reread_witness :
    (do_box fsBoxEx boxInEx pwEx saltEx 2 2 0).saltUsed = some saltEx ∧
    (do_unbox fsUnboxEx unboxInEx pwEx 2 2 0).saltUsed
        = some ((contEx.drop 64).take 16) :=
  ⟨(c7_salt_fresh_and_reread fsBoxEx fsUnboxEx boxInEx unboxInEx pwEx pwEx
      saltEx 2 2 0 2 2 0 ['a', '.', 'b', 'i', 'n'] ['c', '.', 'o', 'u', 't']
      plainEx contEx (by decide) (by decide) (by decide) (by decide)
      (by decide) (by decide) (by decide) (by decide) (by decide)
      (by decide)).2.1,
   (c7_salt_fresh_and_reread fsBoxEx fsUnboxEx boxInEx unboxInEx pwEx pwEx
      saltEx 2 2 0 2 2 0 ['a', '.', 'b', 'i', 'n'] ['c', '.', 'o', 'u', 't']
      plainEx contEx (by decide) (by decide) (by decide) (by decide)
      (by decide) (by decide) (by decide) (by decide) (by decide)
      (by decide)).2.2.2.2.2.1⟩

/-- C8: both operations partition the derived secret identically:
bytes [0,32) become the cipher key (length 32), bytes [32,56) the base
nonce (the 24 bytes after dropping 32), and bytes from 56 on the MAC
key; with the 88-byte derived secret the three parts have lengths 32,
24 and 32. -/
theorem c8_secret_partition (fs fs2 : List Char → Option (List Nat))
    (input input2 : List Char) (pw pw2 salt : List Nat)
    (T C A T2 C2 A2 : Nat) (out out2 : List Char) (plain content : List Nat)
    (hpath : boxPath input = some out) (hpw : pw ≠ [])
    (h16 : salt.length = 16) (hfs : fs input = some plain)
    (hfs2 : fs2 input2 = some content) (hpw2 : pw2 ≠ [])
    (hpath2 : unboxPath input2 = some out2) :
    (do_box fs input pw salt T C A).usedKey
        = some ((secretOf pw salt A).take 32) ∧
    (do_box fs input pw salt T C A).usedNonce
        = some (((secretOf pw salt A).drop 32).take 24) ∧
    (do_box fs input pw salt T C A).usedMac
        = some ((secretOf pw salt A).drop 56) ∧
    (do_unbox fs2 input2 pw2 T2 C2 A2).usedKey
        = some ((secretOf pw2 ((get_secret content).drop 64) A2).take 32) ∧
    (do_unbox fs2 input2 pw2 T2 C2 A2).usedNonce
        = some (((secretOf pw2 ((get_secret content).drop 64) A2).drop 32).take 24) ∧
    (do_unbox fs2 input2 pw2 T2 C2 A2).usedMac
        = some ((secretOf pw2 ((get_secret content).drop 64) A2).drop 56) ∧
    ((secretOf pw salt A).take 32).length = 32 ∧
    (((secretOf pw salt A).drop 32).take 24).length = 24 ∧
    ((secretOf pw salt A).drop 56).length = 32 := by
  have hbox := do_box_success fs input pw salt T C A out plain hpath hpw h16 hfs
  have hlen := length_secretOf pw salt A
  refine ⟨by rw [hbox], by rw [hbox], by rw [hbox], ?_, ?_, ?_, ?_, ?_, ?_⟩
  · cases hdec : decrypt_file
        ((secretOf pw2 ((get_secret content).drop 64) A2).take 32)
        (((secretOf pw2 ((get_secret content).drop 64) A2).drop 32).take 24)
        T2 C2 ((get_secret content).take 64)
        ((secretOf pw2 ((get_secret content).drop 64) A2).drop 56) content with
    | none =>
      rw [do_unbox_auth_fail fs2 input2 pw2 T2 C2 A2 content out2 hfs2 hpw2
        hpath2 hdec]
    | some pl =>
      rw [do_unbox_success fs2 input2 pw2 T2 C2 A2 content out2 pl hfs2 hpw2
        hpath2 hdec]
  · cases hdec : decrypt_file
        ((secretOf pw2 ((get_secret content).drop 64) A2).take 32)
        (((secretOf pw2 ((get_secret content).drop 64) A2).drop 32).take 24)
        T2 C2 ((get_secret content).take 64)
        ((secretOf pw2 ((get_secret content).drop 64) A2).drop 56) content with
    | none =>
      rw [do_unbox_auth_fail fs2 input2 pw2 T2 C2 A2 content out2 hfs2 hpw2
        hpath2 hdec]
    | some pl =>
      rw [do_unbox_success fs2 input2 pw2 T2 C2 A2 content out2 pl hfs2 hpw2
        hpath2 hdec]
  · cases hdec : decrypt_file
        ((secretOf pw2 ((get_secret content).drop 64) A2).take 32)
        (((secretOf pw2 ((get_secret content).drop 64) A2).drop 32).take 24)
        T2 C2 ((get_secret content).take 64)
        ((secretOf pw2 ((get_secret content).drop 64) A2).drop 56) content with
    | none =>
      rw [do_unbox_auth_fail fs2 input2 pw2 T2 C2 A2 content out2 hfs2 hpw2
        hpath2 hdec]
    | some pl =>
      rw [do_unbox_success fs2 input2 pw2 T2 C2 A2 content out2 pl hfs2 hpw2
        hpath2 hdec]
  · rw [List.length_take, hlen]
    decide
  · rw [List.length_take, List.length_drop, hlen]
    decide
  · rw [List.length_drop, hlen]

/-- C8 witness: the partition at a concrete box run. -/
theorem c8_secret_partition_witness :
    (do_box fsBoxEx boxInEx pwEx saltEx 2 2 0).usedKey
        = some ((secretOf pwEx saltEx 0).take 32) ∧
    (do_unbox fsUnboxEx unboxInEx pwEx 2 2 0).usedMac
        = some ((secretOf pwEx ((get_secret contEx).drop 64) 0).drop 56) :=
  ⟨(c8_secret_partition fsBoxEx fsUnboxEx boxInEx unboxInEx pwEx pwEx saltEx
      2 2 0 2 2 0 ['a', '.', 'b', 'i', 'n'] ['c', '.', 'o', 'u', 't']
      plainEx contEx (by decide) (by decide) (by decide) (by decide)
      (by decide) (by decide) (by decide)).1,
   (c8_secret_partition fsBoxEx fsUnboxEx boxInEx unboxInEx pwEx pwEx saltEx
      2 2 0 2 2 0 ['a', '.', 'b', 'i', 'n'] ['c', '.', 'o', 'u', 't']
      plainEx contEx (by decide) (by decide) (by decide) (by decide)
      (by decide) (by decide) (by decide)).2.2.2.2.2.1⟩

/-- C9: on an input path containing no dot, both operations panic on
`rfind('.').unwrap()` before any encryption or decryption of the file
body: box fails before doing anything at all (empty trace), and unbox
fails after the header read and key derivation but before the
`decrypt_file` call (no `decryptBody` event). -/
theorem c9_no_dot_panics (fs : List Char → Option (List Nat))
    (input : List Char) (pw salt : List Nat) (T C A : Nat)
    (content : List Nat) (hdot : '.' ∉ input)
    (hfs : fs input = some content) (hpw : pw ≠ []) :
    (do_box fs input pw salt T C A).fault = some Fault.noDot ∧
    (do_box fs input pw salt T C A).trace = [] ∧
    Ev.encryptBody ∉ (do_box fs input pw salt T C A).trace ∧
    (do_unbox fs input pw T C A).fault = some Fault.noDot ∧
    Ev.decryptBody ∉ (do_unbox fs input pw T C A).trace := by
  rw [do_box_no_dot fs input pw salt T C A (boxPath_eq_none input hdot),
    do_unbox_no_dot fs input pw T C A content hfs hpw
      (unboxPath_eq_none input hdot)]
  exact ⟨rfl, rfl, by simp, rfl, by simp⟩

/-- C9 witness: the dotless path `"abc"` makes both operations panic
before any body processing. -/
theorem c9_no_dot_panics_witness :
    (do_box fsNoDotEx noDotEx pwEx saltEx 2 2 0).fault = some Fault.noDot ∧
    (do_unbox fsNoDotEx noDotEx pwEx 2 2 0).fault = some Fault.noDot :=
  ⟨(c9_no_dot_panics fsNoDotEx noDotEx pwEx saltEx 2 2 0 contEx (by decide)
      (by decide) (by decide)).1,
   (c9_no_dot_panics fsNoDotEx noDotEx pwEx saltEx 2 2 0 contEx (by decide)
      (by decide) (by decide)).2.2.2.1⟩

/-- C10: the derived output path can equal the input path: for any stem
`t`, an input `t ++ ".bin"` makes box derive `t ++ ".bin"` as its own
output path (box reads and writes the same file), and an input
`t ++ ".out"` makes unbox derive `t ++ ".out"`, because the output path
is the stem up to the last dot plus a fixed extension. -/
theorem c10_extension_collision (t : List Char)
    (fs fs2 : List Char → Option (List Nat)) (pw salt : List Nat)
    (T C A : Nat) (content : List Nat)
    (hfs2 : fs2 (t ++ ('.' :: ['o', 'u', 't'])) = some content)
    (hpw : pw ≠ []) :
    boxPath (t ++ ('.' :: ['b', 'i', 'n']))
        = some (t ++ ('.' :: ['b', 'i', 'n'])) ∧
    unboxPath (t ++ ('.' :: ['o', 'u', 't']))
        = some (t ++ ('.' :: ['o', 'u', 't'])) ∧
    (do_box fs (t ++ ('.' :: ['b', 'i', 'n'])) pw salt T C A).outPath
        = some (t ++ ('.' :: ['b', 'i', 'n'])) ∧
    (do_unbox fs2 (t ++ ('.' :: ['o', 'u', 't'])) pw T C A).outPath
        = some (t ++ ('.' :: ['o', 'u', 't'])) := by
  refine ⟨boxPath_bin t, unboxPath_out t, ?_, ?_⟩
  · exact do_box_outPath fs _ pw salt T C A _ (boxPath_bin t)
  · exact do_unbox_outPath fs2 _ pw T C A content _ hfs2 hpw (unboxPath_out t)

/-- C10 witness: with stem `"x"`, box on `"x.bin"` and unbox on
`"x.out"` each write to their own input path. -/
theorem c10_extension_collision_witness :
    (do_box fsBoxEx ['x', '.', 'b', 'i', 'n'] pwEx saltEx 2 2 0).outPath
        = some ['x', '.', 'b', 'i', 'n'] ∧
    (do_unbox fsOutEx ['x', '.', 'o', 'u', 't'] pwEx 2 2 0).outPath
        = some ['x', '.', 'o', 'u', 't'] :=
  ⟨(c10_extension_collision ['x'] fsBoxEx fsOutEx pwEx saltEx 2 2 0 contEx
      (by decide) (by decide)).2.2.1,
   (c10_extension_collision ['x'] fsBoxEx fsOutEx pwEx saltEx 2 2 0 contEx
      (by decide) (by decide)).2.2.2⟩
